import Mathlib

/-!
Verification of the `super_fun_lines` repository: a shallow embedding of the
two Python scripts (`Austin_cs_tagless/numbering_script.py` and
`Chris_Arias_cs_tagless/tori_2_chris.py`) as executable Lean definitions,
together with proofs and refutations of the specification claims.

Text is modelled as `List Char`.  Python regular-expression substitutions are
embedded as deterministic scanning functions: for every pattern appearing in
the source, quantifiers apply only to single-character classes, so Python's
leftmost, greedy/lazy backtracking semantics reduce to maximal-munch scans
(justified in the doc comment of each matcher) or, for the larger extraction
patterns, to an explicit backtracking matcher over a small pattern syntax.
All repository inputs are ASCII, so character classes use their ASCII
meaning.
-/

namespace FunLines

/-- The characters matched by the Python regex class `\s` (and stripped by
`str.strip()` / split by `str.split()`) on ASCII text: space (code point
32), tab, newline, vertical tab, form feed, carriage return (9-13). -/
def isWs (c : Char) : Bool := c == ' ' || (decide (9 ≤ c.toNat) && decide (c.toNat ≤ 13))

/-- The Python regex class `\d` on ASCII text: `0`-`9`, code points
48-57. -/
def isDigitCh (c : Char) : Bool := decide (48 ≤ c.toNat) && decide (c.toNat ≤ 57)

/-- The regex class `[A-Z]`: code points 65-90. -/
def isUpperCh (c : Char) : Bool := decide (65 ≤ c.toNat) && decide (c.toNat ≤ 90)

/-- The regex class `[A-Za-z]`: `[A-Z]` or `a`-`z` (code points 97-122). -/
def isAlphaCh (c : Char) : Bool :=
  isUpperCh c || (decide (97 ≤ c.toNat) && decide (c.toNat ≤ 122))

/-- The regex class `[A-Za-z\s]` used in the role-label patterns. -/
def isAlphaWs (c : Char) : Bool := isAlphaCh c || isWs c

/-- Python `int()` on a string of decimal digits. -/
def digitsToNat (l : List Char) : Nat := l.foldl (fun a c => 10 * a + (c.toNat - 48)) 0

/-- Python `str()` of a non-negative integer: decimal digits, no sign, no
leading zeros (and `"0"` for zero).  The fuel argument (at least the digit
count, so `n + 1` is always enough) makes the recursion structural and
hence kernel-evaluable. -/
def natDigitsAux : Nat → Nat → List Char
  | 0, _ => []
  | f + 1, n =>
    if n < 10 then [Char.ofNat (48 + n)]
    else natDigitsAux f (n / 10) ++ [Char.ofNat (48 + n % 10)]

def natDigits (n : Nat) : List Char := natDigitsAux (n + 1) n

/-- Python `str.strip()`: drop whitespace from both ends. -/
def pyStrip (l : List Char) : List Char :=
  ((l.dropWhile isWs).reverse.dropWhile isWs).reverse

/-- Python `str.split()` with no argument: split on whitespace runs,
discarding empty pieces.  Every iteration consumes at least one character,
so fuel `l.length + 1` always suffices. -/
def pySplitAux : Nat → List Char → List (List Char)
  | 0, _ => []
  | f + 1, l =>
    match l.dropWhile isWs with
    | [] => []
    | c :: cs => (c :: cs.takeWhile (fun x => !isWs x)) ::
        pySplitAux f (cs.dropWhile (fun x => !isWs x))

def pySplit (l : List Char) : List (List Char) := pySplitAux (l.length + 1) l

/-- `' '.join(pieces)` on a list of strings. -/
def joinSpace (ls : List (List Char)) : List Char := List.intercalate [' '] ls

/-- `' '.join(s.strip().split())` — the normalization applied to every
extracted monologue body in `process_files`. -/
def normWords (l : List Char) : List Char := joinSpace (pySplit (pyStrip l))

/-! ## `clean_text` (numbering_script.py, lines 24-54)

Each `re.sub` rule is embedded as a leftmost scan with a deterministic
matcher.  Determinism of each matcher is forced by the pattern shape: every
greedy single-character-class run is followed either by a character outside
the class (so giving back characters can never make the next item match) or
is the final item, hence maximal munch coincides with Python's backtracking
search. -/

/-- The tail after a matched digit run followed by a colon and trailing
whitespace, i.e. the suffix part `\d+:\s*` shared by rules 1 and 2 of
`clean_text`; `none` when it does not match at the head of the text. -/
def mNumColon (r : List Char) : Option (List Char) :=
  if (r.takeWhile isDigitCh).length = 0 then none
  else
    match r.dropWhile isDigitCh with
    | ':' :: r2 => some (r2.dropWhile isWs)
    | _ => none

/-- Match `Character\s*\d+:\s*` at the head of the text (rule 1 of
`clean_text`), returning the rest after the match. -/
def mCharLabel (l : List Char) : Option (List Char) :=
  if "Character".toList.isPrefixOf l then
    mNumColon ((l.drop 9).dropWhile isWs)
  else none

/-- Rule 1 of `clean_text`: `re.sub(r'Character\s*\d+:\s*', '', text)`,
as a leftmost non-rescanning replacement scan.  Every step consumes at
least one character (`mCharLabel_length`), so fuel `l.length + 1` always
suffices. -/
def subCharLabelAux : Nat → List Char → List Char
  | 0, _ => []
  | _ + 1, [] => []
  | f + 1, c :: cs =>
    match mCharLabel (c :: cs) with
    | some rest => subCharLabelAux f rest
    | none => c :: subCharLabelAux f cs

def subCharLabel (l : List Char) : List Char := subCharLabelAux (l.length + 1) l

/-- The regex fragment `[A-Z]?` when followed by `\d+`: greedy, so the
uppercase letter is consumed exactly when a digit follows it (otherwise the
engine backtracks to the empty alternative, and the subsequent `\d+` decides
the overall outcome either way). -/
def optUpper (r : List Char) : List Char :=
  match r with
  | u :: ru => if isUpperCh u && isDigitCh (ru.headD ' ') then ru else u :: ru
  | [] => []

/-- Match `[A-Z][A-Za-z\s]+:\s*[A-Z]?\d+:\s*` at the head of the text
(rule 2 of `clean_text`). -/
def mRoleCode (l : List Char) : Option (List Char) :=
  match l with
  | [] => none
  | c :: cs =>
    if isUpperCh c then
      if (cs.takeWhile isAlphaWs).length = 0 then none
      else
        match cs.dropWhile isAlphaWs with
        | ':' :: r1 => mNumColon (optUpper (r1.dropWhile isWs))
        | _ => none
    else none

/-- Rule 2 of `clean_text`:
`re.sub(r'[A-Z][A-Za-z\s]+:\s*[A-Z]?\d+:\s*', '', text)`; fuel as in
`subCharLabelAux` (justified by `mRoleCode_length`). -/
def subRoleCodeAux : Nat → List Char → List Char
  | 0, _ => []
  | _ + 1, [] => []
  | f + 1, c :: cs =>
    match mRoleCode (c :: cs) with
    | some rest => subRoleCodeAux f rest
    | none => c :: subRoleCodeAux f cs

def subRoleCode (l : List Char) : List Char := subRoleCodeAux (l.length + 1) l

/-- Rule 3 of `clean_text`: `re.sub(r'^[A-Z][A-Za-z\s]+:\s*', '', text)`.
The `^` anchor (no MULTILINE flag) restricts the scan to position 0, so at
most one removal happens, at the start. -/
def mRoleStart (l : List Char) : Option (List Char) :=
  match l with
  | [] => none
  | c :: cs =>
    if isUpperCh c then
      if (cs.takeWhile isAlphaWs).length = 0 then none
      else
        match cs.dropWhile isAlphaWs with
        | ':' :: r1 => some (r1.dropWhile isWs)
        | _ => none
    else none

def subRoleStart (l : List Char) : List Char := (mRoleStart l).getD l

/-- `text[:idx]` at the first occurrence of `m` (Python `text.find`), or
`text` unchanged when `m` does not occur. -/
def truncAt (m : List Char) : List Char → List Char
  | [] => []
  | c :: cs => if m.isPrefixOf (c :: cs) then [] else c :: truncAt m cs

/-- The metadata markers of `clean_text`, in source order. -/
def markers : List (List Char) :=
  ["ITEMS ".toList, "ITEM ".toList, "You are B;".toList, "You are A;".toList,
   "You are Character".toList, "You are playing a customer service agent".toList]

/-- Rule 4 of `clean_text`: truncate at the first appearance of each
metadata marker, in order. -/
def truncMarkers (l : List Char) : List Char :=
  markers.foldl (fun t m => truncAt m t) l

/-- Match `\s*X{5,}\s*` at the head of the text, for a run character `X`
(rules 5 of `clean_text`). -/
def mRun5 (x : Char) (l : List Char) : Option (List Char) :=
  if 5 ≤ ((l.dropWhile isWs).takeWhile (fun c => c == x)).length then
    some (((l.dropWhile isWs).dropWhile (fun c => c == x)).dropWhile isWs)
  else none

/-- Rule 5 of `clean_text`: `re.sub(r'\s*={5,}\s*', ' ', text)` (and the
same with `-`); fuel as in `subCharLabelAux` (justified by
`mRun5_length`). -/
def subRun5Aux (x : Char) : Nat → List Char → List Char
  | 0, _ => []
  | _ + 1, [] => []
  | f + 1, c :: cs =>
    match mRun5 x (c :: cs) with
    | some rest => ' ' :: subRun5Aux x f rest
    | none => c :: subRun5Aux x f cs

def subRun5 (x : Char) (l : List Char) : List Char := subRun5Aux x (l.length + 1) l

/-- Rule 6 of `clean_text`: `re.sub(r'\s+', ' ', text)` — every maximal
whitespace run becomes a single space.  Each step consumes at least one
character, so fuel `l.length + 1` always suffices. -/
def collapseWsAux : Nat → List Char → List Char
  | 0, _ => []
  | _ + 1, [] => []
  | f + 1, c :: cs =>
    if isWs c then ' ' :: collapseWsAux f (cs.dropWhile isWs)
    else c :: collapseWsAux f cs

def collapseWs (l : List Char) : List Char := collapseWsAux (l.length + 1) l

/-- `clean_text` of numbering_script.py: the six substitution rules in
source order, then a final `strip()`. -/
def cleanText (l : List Char) : List Char :=
  pyStrip (collapseWs (subRun5 '-' (subRun5 '='
    (truncMarkers (subRoleStart (subRoleCode (subCharLabel l)))))))

/-! ## A small regex matcher

The monologue-extraction patterns and the header-removal substitutions of
`process_files` are transliterated into a list of pattern elements and run
by a backtracking matcher with Python `re` semantics: leftmost match,
greedy quantifiers try the longest repetition first, lazy ones the
shortest, an optional group tries the present alternative first, and a
lookahead is zero-width.  All quantifiers in the source patterns range over
single-character classes, which this syntax captures exactly.  The matcher
carries fuel; `matchFuel` exceeds every need of the fixed source patterns
(their element count, including nested elements, is below 40). -/

/-- Captured groups: group index paired with the captured characters. -/
abbrev Caps := List (Nat × List Char)

/-- Pattern elements.  `cls p lo hi greedy cap` is a repetition of the
single-character class `p` with at least `lo` and at most `hi` (unbounded
when `none`) occurrences, greedy or lazy, optionally capturing as group
`cap`; `grpOpt` is a greedy optional non-capturing group; `look` is a
lookahead over ordered alternatives; `bol`/`eol` are the MULTILINE `^`/`$`
anchors; `eos` is `\Z`; `nlb` is the lookbehind `(?<!\n)`. -/
inductive RE where
  | lit : List Char → RE
  | cls : (Char → Bool) → Nat → Option Nat → Bool → Option Nat → RE
  | grpOpt : List RE → RE
  | look : List (List RE) → RE
  | bol : RE
  | eol : RE
  | eos : RE
  | nlb : RE

def runLen (p : Char → Bool) (l : List Char) : Nat := (l.takeWhile p).length

def tryLens (f : Nat → Option (Nat × Caps)) : List Nat → Option (Nat × Caps)
  | [] => none
  | n :: ns =>
    match f n with
    | some r => some r
    | none => tryLens f ns

/-- Largest possible repetition count: the maximal class run, clipped by
the upper bound when there is one. -/
def clipRun (hi : Option Nat) (r : Nat) : Nat :=
  match hi with
  | some h => min r h
  | none => r

/-- The repetition counts to try, in preference order: greedy from the
largest down to `lo`, lazy from `lo` up to the largest. -/
def candLens (lo m : Nat) (greedy : Bool) : List Nat :=
  if greedy then (List.range (m - lo + 1)).map (fun d => m - d)
  else (List.range (m - lo + 1)).map (fun d => lo + d)

/-- The backtracking matcher: match the pattern elements against `s`
starting at position `i`, calling the continuation `k` with the end
position and captures on success of the element list. -/
def mRE (s : List Char) :
    Nat → List RE → Nat → (Nat → Caps → Option (Nat × Caps)) → Caps →
    Option (Nat × Caps)
  | 0, _, _, _, _ => none
  | _ + 1, [], i, k, caps => k i caps
  | fu + 1, .lit t :: es, i, k, caps =>
    if t.isPrefixOf (s.drop i) then mRE s fu es (i + t.length) k caps else none
  | fu + 1, .cls p lo hi greedy cap :: es, i, k, caps =>
    if clipRun hi (runLen p (s.drop i)) < lo then none
    else
      tryLens
        (fun n => mRE s fu es (i + n) k
          (match cap with
           | some g => caps ++ [(g, (s.drop i).take n)]
           | none => caps))
        (candLens lo (clipRun hi (runLen p (s.drop i))) greedy)
  | fu + 1, .grpOpt g :: es, i, k, caps =>
    match mRE s fu g i (fun j caps2 => mRE s fu es j k caps2) caps with
    | some r => some r
    | none => mRE s fu es i k caps
  | fu + 1, .look alts :: es, i, k, caps =>
    if alts.any (fun a => (mRE s fu a i (fun j c => some (j, c)) caps).isSome)
    then mRE s fu es i k caps else none
  | fu + 1, .bol :: es, i, k, caps =>
    if i = 0 || ((s.drop (i - 1)).headD ' ') == '\n' then mRE s fu es i k caps
    else none
  | fu + 1, .eol :: es, i, k, caps =>
    if decide (s.length ≤ i) || ((s.drop i).headD ' ') == '\n'
    then mRE s fu es i k caps else none
  | fu + 1, .eos :: es, i, k, caps =>
    if decide (s.length ≤ i) then mRE s fu es i k caps else none
  | fu + 1, .nlb :: es, i, k, caps =>
    if i = 0 || !(((s.drop (i - 1)).headD ' ') == '\n') then mRE s fu es i k caps
    else none

def matchFuel : Nat := 1000

/-- Attempt a match of `pat` at position `i` of `s`; on success return the
end position and the captures. -/
def matchAt (s : List Char) (pat : List RE) (i : Nat) : Option (Nat × Caps) :=
  mRE s matchFuel pat i (fun j caps => some (j, caps)) []

/-- `re.finditer`: scan positions left to right, resuming after each
(non-empty) match.  Every source pattern needs at least one character, so
the empty-match special case (advance by one) never fires on them. -/
def findIterAux (s : List Char) (pat : List RE) : Nat → Nat → List (Nat × Nat × Caps)
  | 0, _ => []
  | f + 1, i =>
    if decide (s.length < i) then []
    else
      match matchAt s pat i with
      | some (j, caps) =>
        (i, j, caps) :: findIterAux s pat f (if decide (i < j) then j else i + 1)
      | none => findIterAux s pat f (i + 1)

def findIter (pat : List RE) (s : List Char) : List (Nat × Nat × Caps) :=
  findIterAux s pat (s.length + 2) 0

/-- `re.sub`: scan positions left to right, copying unmatched characters
and replacing each match.  (Since no source pattern can match the empty
string, no match is attempted at the end-of-string position.) -/
def reSubAux (s : List Char) (pat : List RE) (repl : Caps → List Char) :
    Nat → Nat → List Char
  | 0, _ => []
  | f + 1, i =>
    if decide (s.length ≤ i) then []
    else
      match matchAt s pat i with
      | some (j, caps) =>
        if decide (i < j) then repl caps ++ reSubAux s pat repl f j
        else repl caps ++ (s.drop i).take 1 ++ reSubAux s pat repl f (i + 1)
      | none => (s.drop i).take 1 ++ reSubAux s pat repl f (i + 1)

def reSub (pat : List RE) (repl : Caps → List Char) (s : List Char) : List Char :=
  reSubAux s pat repl (s.length + 2) 0

/-! ## The extraction patterns of `process_files` -/

def notNl (c : Char) : Bool := !(c == '\n')

def isEq (c : Char) : Bool := c == '='

def isNl (c : Char) : Bool := c == '\n'

def noDigitNl (c : Char) : Bool := !(isDigitCh c) && !(c == '\n')

def many (p : Char → Bool) : RE := .cls p 0 none true none

def many1 (p : Char → Bool) : RE := .cls p 1 none true none

def atLeast (n : Nat) (p : Char → Bool) : RE := .cls p n none true none

def one (p : Char → Bool) : RE := .cls p 1 (some 1) true none

def capMany1 (g : Nat) (p : Char → Bool) : RE := .cls p 1 none true (some g)

def capLazyAny (g : Nat) : RE := .cls (fun _ => true) 0 none false (some g)

def lazyAny : RE := .cls (fun _ => true) 0 none false none

def lits (t : String) : RE := .lit t.toList

/-- `monologue_pattern1` of `process_files` (with `re.DOTALL`):
`---\s*MONOLOGUE[^\n]*---\s*\n(?:\s*[^\d\n][^\n]*\n)?\s*(\d+)\s+SCENARIO:`
`[^\n]*\n=+\n(.*?)(?=\n---|\n\n\d+\s|\Z)`. -/
def monologuePat1 : List RE :=
  [lits "---", many isWs, lits "MONOLOGUE", many notNl, lits "---", many isWs,
   lits "\n", .grpOpt [many isWs, one noDigitNl, many notNl, lits "\n"],
   many isWs, capMany1 1 isDigitCh, many1 isWs, lits "SCENARIO:", many notNl,
   lits "\n", many1 isEq, lits "\n", capLazyAny 2,
   .look [[lits "\n---"], [lits "\n\n", many1 isDigitCh, one isWs], [.eos]]]

/-- `monologue_pattern2` of `process_files` (with `re.DOTALL`):
`={10,}\nITEM\s+(\d+)\s*-\s*MONOLOGUE[^\n]*\nSource:[^\n]*\n={10,}\n.*?`
`\d+\s+SCENARIO:[^\n]*\n=+\n(.*?)(?=\n+={10,}\nITEM|\n---|\Z)`. -/
def monologuePat2 : List RE :=
  [atLeast 10 isEq, lits "\n", lits "ITEM", many1 isWs, capMany1 1 isDigitCh,
   many isWs, lits "-", many isWs, lits "MONOLOGUE", many notNl, lits "\n",
   lits "Source:", many notNl, lits "\n", atLeast 10 isEq, lits "\n",
   lazyAny, many1 isDigitCh, many1 isWs, lits "SCENARIO:", many notNl,
   lits "\n", many1 isEq, lits "\n", capLazyAny 2,
   .look [[many1 isNl, atLeast 10 isEq, lits "\n", lits "ITEM"],
          [lits "\n---"], [.eos]]]

/-- `scenario_pattern` of `process_files` (with `re.DOTALL`):
`(?<!\n)(\d+)\s+SCENARIO:[^\n]*\n=+\n(.*?)`
`(?=\n---|\n\n\d+\s|\n={10,}\nITEM|\Z)`. -/
def scenPat : List RE :=
  [.nlb, capMany1 1 isDigitCh, many1 isWs, lits "SCENARIO:", many notNl,
   lits "\n", many1 isEq, lits "\n", capLazyAny 2,
   .look [[lits "\n---"], [lits "\n\n", many1 isDigitCh, one isWs],
          [lits "\n", atLeast 10 isEq, lits "\n", lits "ITEM"], [.eos]]]

/-! ## The header-removal substitutions (MULTILINE) -/

def pDashHeader : List RE := [lits "---", many notNl, lits "---"]

def pEqLine : List RE := [.bol, many isWs, many1 isEq, many isWs, .eol]

def pScenLine : List RE :=
  [.bol, many isWs, many1 isDigitCh, many1 isWs, lits "SCENARIO:", many notNl, .eol]

def pScriptLine : List RE := [.bol, many isWs, lits "Script:", many notNl, .eol]

def pCharLine : List RE :=
  [.bol, many isWs, lits "Character", many isWs, many1 isDigitCh, lits ":",
   many notNl, .eol]

def pItemLine : List RE :=
  [.bol, many isWs, lits "ITEM", many1 isWs, many1 isDigitCh, many notNl, .eol]

def pItemsLine : List RE :=
  [.bol, many isWs, lits "ITEMS", many1 isWs, many1 isDigitCh, lits "-",
   many1 isDigitCh, many notNl, .eol]

def pSourceLine : List RE := [.bol, many isWs, lits "Source:", many notNl, .eol]

def pThisMustLine : List RE :=
  [.bol, many isWs, lits "This must be read", many notNl, .eol]

def pYouPlayingLine : List RE :=
  [.bol, many isWs, lits "You are playing", many notNl, .eol]

def pYouAreLetterLine : List RE :=
  [.bol, many isWs, lits "You are ", one isUpperCh, lits ";", many notNl, .eol]

def pYouAreCharLine : List RE :=
  [.bol, many isWs, lits "You are Character", many notNl, .eol]

def breakTok : List Char := "###BREAK###".toList

/-- The whole substitution cascade producing `content_cleaned` from the
normalized content, in source order. -/
def removeMatched (c : List Char) : List Char :=
  let c := reSub monologuePat1 (fun _ => ['\n']) c
  let c := reSub monologuePat2 (fun _ => ['\n']) c
  let c := reSub scenPat (fun _ => ['\n']) c
  let c := reSub pDashHeader (fun _ => []) c
  let c := reSub pEqLine (fun _ => []) c
  let c := reSub pScenLine (fun _ => []) c
  let c := reSub pScriptLine (fun _ => []) c
  let c := reSub pCharLine (fun _ => breakTok) c
  let c := reSub pItemLine (fun _ => breakTok) c
  let c := reSub pItemsLine (fun _ => breakTok) c
  let c := reSub pSourceLine (fun _ => []) c
  let c := reSub pThisMustLine (fun _ => []) c
  let c := reSub pYouPlayingLine (fun _ => breakTok) c
  let c := reSub pYouAreLetterLine (fun _ => breakTok) c
  reSub pYouAreCharLine (fun _ => breakTok) c

/-! ## Regular numbered-line collection -/

/-- `content_cleaned.split('\n')`. -/
def splitNl : List Char → List (List Char)
  | [] => [[]]
  | c :: cs =>
    if c == '\n' then [] :: splitNl cs
    else
      match splitNl cs with
      | [] => [[c]]
      | l :: ls => (c :: l) :: ls

/-- `re.match(r'^(\d+)\s+(.*)$', line)` on a line (no newline inside):
leading digit run, then a whitespace run, then the rest. -/
def numHead (l : List Char) : Option (Nat × List Char) :=
  if (l.takeWhile isDigitCh).length = 0 then none
  else if ((l.dropWhile isDigitCh).takeWhile isWs).length = 0 then none
  else some (digitsToNat (l.takeWhile isDigitCh),
             (l.dropWhile isDigitCh).dropWhile isWs)

/-- `re.match(r'^\d+\s+', line)` as a test. -/
def numStart (l : List Char) : Bool :=
  !((l.takeWhile isDigitCh).length == 0) &&
  !(((l.dropWhile isDigitCh).takeWhile isWs).length == 0)

/-- The continuation-stopping conditions that do not consume the line
(new numbered line, or a section/speaker/instruction marker). -/
def isStopLine (l st : List Char) : Bool :=
  numStart l || "---".toList.isPrefixOf l || "===".toList.isPrefixOf st ||
  "ITEM ".toList.isPrefixOf st || "ITEMS ".toList.isPrefixOf st ||
  "Source:".toList.isPrefixOf st || "Script:".toList.isPrefixOf st ||
  "Character ".toList.isPrefixOf st || "This must be read".toList.isPrefixOf st ||
  "You are".toList.isPrefixOf st

/-- The inner continuation-gathering loop: returns the collected stripped
continuation lines and the lines remaining afterwards.  A break marker or a
blank line is consumed and stops; a stop line stops without being
consumed. -/
def gather : List (List Char) → (List (List Char) × List (List Char))
  | [] => ([], [])
  | l :: ls =>
    if pyStrip l == breakTok then ([], ls)
    else if (pyStrip l).length = 0 then ([], ls)
    else if isStopLine l (pyStrip l) then ([], l :: ls)
    else ((pyStrip l) :: (gather ls).1, (gather ls).2)

/-- The outer loop over `lines` of `process_files`: open an entry at every
line matching `^(\d+)\s+(.*)$`, gather continuations, and keep the joined
text when its strip is non-empty.  Every iteration consumes at least one
line (`gather_length` bounds the inner loop), so fuel `length + 1` always
suffices. -/
def collectNumAux : Nat → List (List Char) → List (Nat × List Char)
  | 0, _ => []
  | _ + 1, [] => []
  | f + 1, l :: ls =>
    match numHead l with
    | none => collectNumAux f ls
    | some (n, first) =>
      (if (pyStrip (joinSpace (first :: (gather ls).1))).length = 0 then []
       else [(n, joinSpace (first :: (gather ls).1))]) ++
      collectNumAux f (gather ls).2

def collectNum (ls : List (List Char)) : List (Nat × List Char) :=
  collectNumAux (ls.length + 1) ls

/-! ## The per-file pipeline and aggregation -/

/-- `content.replace('\r\n', '\n')`: left-to-right non-overlapping literal
replacement. -/
def replaceCrlf : List Char → List Char
  | '\r' :: '\n' :: cs => '\n' :: replaceCrlf cs
  | c :: cs => c :: replaceCrlf cs
  | [] => []

/-- Line-ending normalization of `process_files`:
`content.replace('\r\n', '\n').replace('\r', '\n')`. -/
def normNl (c : List Char) : List Char :=
  (replaceCrlf c).map (fun x => if x == '\r' then '\n' else x)

/-- Group lookup (`match.group(g)`), empty when absent. -/
def grp (g : Nat) (caps : Caps) : List Char := (caps.lookup g).getD []

/-- The entries contributed by one extraction pattern:
`(int(match.group(1)), ' '.join(match.group(2).strip().split()))`. -/
def patEntries (pat : List RE) (c : List Char) : List (Nat × List Char) :=
  (findIter pat c).map
    (fun m => (digitsToNat (grp 1 m.2.2), normWords (grp 2 m.2.2)))

/-- One step of the fallback scenario pass: append the entry unless its
number is already present
(`if line_num not in [e[0] for e in all_entries]`). -/
def addIfNew (acc : List (Nat × List Char)) (e : Nat × List Char) :
    List (Nat × List Char) :=
  if e.1 ∈ acc.map Prod.fst then acc else acc ++ [e]

/-- The fallback standalone-SCENARIO pass over its matches. -/
def fallbackPass (acc : List (Nat × List Char)) (ms : List (Nat × List Char)) :
    List (Nat × List Char) :=
  ms.foldl addIfNew acc

/-- Processing of a single file's content, appending to the accumulated
entries: the three extraction passes, then regular-line collection on the
substitution-cleaned content. -/
def stepFile (acc : List (Nat × List Char)) (content : List Char) :
    List (Nat × List Char) :=
  let c := normNl content
  let acc1 := acc ++ patEntries monologuePat1 c
  let acc2 := acc1 ++ patEntries monologuePat2 c
  let acc3 := fallbackPass acc2 (patEntries scenPat c)
  acc3 ++ collectNum (splitNl (removeMatched c))

/-- `all_entries` after processing the given file contents in order. -/
def allEntries (contents : List (List Char)) : List (Nat × List Char) :=
  contents.foldl stepFile []

/-- The sort key order of `all_entries.sort(key=lambda x: x[0])`. -/
def entryLE (a b : Nat × List Char) : Prop := a.1 ≤ b.1

instance : DecidableRel entryLE := fun a b => Nat.decLe a.1 b.1

instance : IsTotal (Nat × List Char) entryLE := ⟨fun a b => Nat.le_total a.1 b.1⟩

instance : IsTrans (Nat × List Char) entryLE := ⟨fun _ _ _ => Nat.le_trans⟩

/-- `all_entries.sort(key=lambda x: x[0])`: Python's sort is stable, and a
stable sort's output is uniquely determined by the input, so insertion
sort (stable, `List.sublist_insertionSort`) is an exact model. -/
def pySortEntries (es : List (Nat × List Char)) : List (Nat × List Char) :=
  es.insertionSort entryLE

/-- The dedup loop of `process_files`: keep the first occurrence of every
line number (`seen` collects the numbers already kept). -/
def dedupFirst : List (Nat × List Char) → List Nat → List (Nat × List Char)
  | [], _ => []
  | e :: es, seen =>
    if e.1 ∈ seen then dedupFirst es seen
    else e :: dedupFirst es (e.1 :: seen)

/-- `unique_entries`. -/
def uniqueEntries (es : List (Nat × List Char)) : List (Nat × List Char) :=
  dedupFirst (pySortEntries es) []

/-- The surviving entries that produce an output line (cleaned text
non-empty). -/
def outEntries (es : List (Nat × List Char)) : List (Nat × List Char) :=
  (uniqueEntries es).filter (fun e => decide (cleanText e.2 ≠ []))

/-- `f"{num}  {cleaned}"`. -/
def fmtEntry (e : Nat × List Char) : List Char :=
  natDigits e.1 ++ "  ".toList ++ cleanText e.2

/-- `output_lines`. -/
def outputLines (es : List (Nat × List Char)) : List (List Char) :=
  (outEntries es).map fmtEntry

/-- The full output-file content written by `process_files`:
`'\n'.join(output_lines)`. -/
def outputContent (contents : List (List Char)) : List Char :=
  List.intercalate ['\n'] (outputLines (allEntries contents))

/-! ## tori_2_chris.py -/

def OFFSET : Nat := 612

def START_FILE : Nat := 8

/-- Match `(\d+)(\s)` at the current position: the maximal digit run
(greedy `\d+` can never give characters back, since the following `\s` is
disjoint from `\d`) followed by one whitespace character. -/
def mNumWs (l : List Char) : Option (List Char × Char × List Char) :=
  if (l.takeWhile isDigitCh).length = 0 then none
  else
    match l.dropWhile isDigitCh with
    | w :: rest => if isWs w then some (l.takeWhile isDigitCh, w, rest) else none
    | [] => none

/-- The `re.sub(r'^(\d+)(\s)', add_offset, content, flags=re.MULTILINE)`
scan of `add_offset_to_numbers`.  The Boolean state says whether the
current position is a line start (position 0 or just after a newline);
only there can the anchored pattern match.  A match consumes the digits
and one whitespace character — possibly the line's own newline — and the
replacement is `str(int(digits) + OFFSET)` followed by that same
whitespace character. -/
def addOffAux : Nat → Bool → List Char → List Char
  | 0, _, _ => []
  | _ + 1, _, [] => []
  | f + 1, true, c :: cs =>
    match mNumWs (c :: cs) with
    | some (ds, w, rest) =>
      natDigits (digitsToNat ds + OFFSET) ++ w :: addOffAux f (w == '\n') rest
    | none => c :: addOffAux f (c == '\n') cs
  | f + 1, false, c :: cs => c :: addOffAux f (c == '\n') cs

/-- The content transformation of `add_offset_to_numbers`.  Every step
consumes at least one character, so fuel `length + 1` always suffices. -/
def addOffset (content : List Char) : List Char :=
  addOffAux (content.length + 1) true content

/-- `re.search(r'actor_assignments(\d+)\.txt', filepath)` tried at one
position: the literal, a non-empty digit run (greedy `\d+` cannot give
characters back, as `.` is not a digit), then `.txt`. -/
def fileNumAt (l : List Char) : Option Nat :=
  if "actor_assignments".toList.isPrefixOf l then
    if ((l.drop 17).takeWhile isDigitCh).length = 0 then none
    else if ".txt".toList.isPrefixOf ((l.drop 17).dropWhile isDigitCh) then
      some (digitsToNat ((l.drop 17).takeWhile isDigitCh))
    else none
  else none

/-- `re.search`: the leftmost position where the pattern matches. -/
def fileNum : List Char → Option Nat
  | [] => none
  | c :: cs =>
    match fileNumAt (c :: cs) with
    | some n => some n
    | none => fileNum cs

/-- The effect of `main` of tori_2_chris.py on one file: the content is
rewritten by `add_offset_to_numbers` exactly when the filename embeds a
numeric suffix that is at least `START_FILE`. -/
def toriFile (name content : List Char) : List Char :=
  match fileNum name with
  | some k => if START_FILE ≤ k then addOffset content else content
  | none => content

/-! ## Auxiliary definitions for statements and proofs

`occursIn` and the `finds…` scans decide whether a `clean_text` rule can
still fire anywhere in a text; they are used in the amended idempotence
statement.  `procSeg`/`procLines` are the per-line characterization of
`addOffset` established in `addOffset_lines`. -/

/-- `text.find(m) != -1`: `m` occurs as a contiguous substring. -/
def occursIn (m : List Char) : List Char → Bool
  | [] => false
  | c :: cs => m.isPrefixOf (c :: cs) || occursIn m cs

/-- Rule 1 of `clean_text` matches somewhere in the text. -/
def findsCharLabel : List Char → Bool
  | [] => false
  | c :: cs => (mCharLabel (c :: cs)).isSome || findsCharLabel cs

/-- Rule 2 of `clean_text` matches somewhere in the text. -/
def findsRoleCode : List Char → Bool
  | [] => false
  | c :: cs => (mRoleCode (c :: cs)).isSome || findsRoleCode cs

/-- Rule 5 of `clean_text` (for the run character `x`) matches somewhere
in the text. -/
def findsRun5 (x : Char) : List Char → Bool
  | [] => false
  | c :: cs => (mRun5 x (c :: cs)).isSome || findsRun5 x cs

/-- What `addOffset` does to a single line of the content: a line starting
with digits directly followed by an in-line whitespace character is
renumbered; a line consisting solely of digits is renumbered when it is
not the final segment (its terminating newline is the matched `\s`);
anything else is left alone. -/
def procSeg (final : Bool) (l : List Char) : List Char :=
  match mNumWs l with
  | some (ds, w, rest) => natDigits (digitsToNat ds + OFFSET) ++ w :: rest
  | none =>
    if !final && !l.isEmpty && l.all isDigitCh then
      natDigits (digitsToNat l + OFFSET)
    else l

/-- `procSeg` applied to every line, the last one with `final := true`. -/
def procLines : List (List Char) → List (List Char)
  | [] => []
  | [l] => [procSeg true l]
  | l :: ls => procSeg false l :: procLines ls

end FunLines

namespace FunLines

/-! # Theorems -/

/-! ## Support lemmas on list scanning -/

theorem length_dropWhile_le' (p : α → Bool) (l : List α) :
    (l.dropWhile p).length ≤ l.length := by
  induction l with
  | nil => simp [List.dropWhile]
  | cons c cs ih =>
    simp only [List.dropWhile]
    split
    · exact Nat.le_trans ih (by simp)
    · simp

theorem mNumColon_length {r s : List Char} (h : mNumColon r = some s) :
    s.length < r.length := by
  unfold mNumColon at h
  split at h
  · exact absurd h (by simp)
  · split at h
    case h_1 r2 heq =>
      have h2 : (r.dropWhile isDigitCh).length ≤ r.length := length_dropWhile_le' _ _
      rw [heq] at h2
      have h3 : (r2.dropWhile isWs).length ≤ r2.length := length_dropWhile_le' _ _
      simp only [Option.some.injEq] at h
      subst h
      simp at h2
      omega
    case h_2 => exact absurd h (by simp)

theorem mCharLabel_length {l r : List Char} (h : mCharLabel l = some r) :
    r.length < l.length := by
  unfold mCharLabel at h
  split at h
  case isTrue hpre =>
    have h9 : 9 ≤ l.length := by
      rw [List.isPrefixOf_iff_prefix] at hpre
      calc 9 = ("Character".toList).length := by decide
      _ ≤ l.length := hpre.length_le
    have hd : (l.drop 9).length = l.length - 9 := by simp
    have h1 : ((l.drop 9).dropWhile isWs).length ≤ (l.drop 9).length :=
      length_dropWhile_le' _ _
    have h2 := mNumColon_length h
    omega
  case isFalse => exact absurd h (by simp)

theorem optUpper_length (r : List Char) : (optUpper r).length ≤ r.length := by
  unfold optUpper
  split
  · split
    · simp
    · exact Nat.le_refl _
  · exact Nat.le_refl _

theorem mRoleCode_length {l r : List Char} (h : mRoleCode l = some r) :
    r.length < l.length := by
  unfold mRoleCode at h
  match l with
  | [] => exact absurd h (by simp)
  | c :: cs =>
    simp only at h
    split at h
    case isTrue =>
      split at h
      · exact absurd h (by simp)
      · split at h
        case h_1 r1 heq1 =>
          have hr1 : r1.length < cs.length := by
            have := length_dropWhile_le' isAlphaWs cs
            rw [heq1] at this; simp at this; omega
          have hr2 : (r1.dropWhile isWs).length ≤ r1.length :=
            length_dropWhile_le' _ _
          have hr3 := optUpper_length (r1.dropWhile isWs)
          have hr4 := mNumColon_length h
          simp only [List.length_cons]
          omega
        case h_2 => exact absurd h (by simp)
    case isFalse => exact absurd h (by simp)

theorem mRun5_length {x : Char} {l r : List Char} (h : mRun5 x l = some r) :
    r.length < l.length := by
  unfold mRun5 at h
  split at h
  case isTrue h5 =>
    simp only [Option.some.injEq] at h
    subst h
    have h1 : (l.dropWhile isWs).length ≤ l.length := length_dropWhile_le' _ _
    have h2 : (l.dropWhile isWs).length =
        ((l.dropWhile isWs).takeWhile (fun c => c == x)).length +
        ((l.dropWhile isWs).dropWhile (fun c => c == x)).length := by
      rw [← List.length_append, List.takeWhile_append_dropWhile]
    have h3 : (((l.dropWhile isWs).dropWhile (fun c => c == x)).dropWhile isWs).length ≤
        ((l.dropWhile isWs).dropWhile (fun c => c == x)).length :=
      length_dropWhile_le' _ _
    omega
  case isFalse => exact absurd h (by simp)

theorem gather_length : ∀ ls : List (List Char), (gather ls).2.length ≤ ls.length
  | [] => Nat.le_refl 0
  | l :: ls => by
    unfold gather
    split
    · simp
    · split
      · simp
      · split
        · simp
        · have := gather_length ls
          simp
          omega

/-! ## Shape of `clean_text` output

The final two steps of `clean_text` are whitespace collapse and strip;
these lemmas pin down the resulting invariants: every whitespace character
is a single space, no two adjacent characters are both whitespace, and the
ends are not whitespace. -/

theorem dropWhile_head_not (p : α → Bool) (l : List α) {c : α}
    (h : (l.dropWhile p).head? = some c) : p c = false := by
  induction l with
  | nil => simp [List.dropWhile] at h
  | cons x xs ih =>
    rw [List.dropWhile_cons] at h
    split at h
    · exact ih h
    · simp only [List.head?_cons, Option.some.injEq] at h
      subst h
      simp_all

theorem dropWhile_eq_self_of_head (p : α → Bool) (l : List α)
    (h : ∀ c, l.head? = some c → p c = false) : l.dropWhile p = l := by
  cases l with
  | nil => rfl
  | cons x xs =>
    have := h x (by rfl)
    simp [List.dropWhile_cons, this]

theorem collapseWsAux_ws_space :
    ∀ (f : Nat) (l : List Char), ∀ c ∈ collapseWsAux f l, isWs c = true → c = ' '
  | 0, _ => by simp [collapseWsAux]
  | _ + 1, [] => by simp [collapseWsAux]
  | f + 1, c :: cs => by
    intro x hx hws
    simp only [collapseWsAux] at hx
    split at hx
    · rcases List.mem_cons.1 hx with h | h
      · exact h
      · exact collapseWsAux_ws_space f _ x h hws
    · rcases List.mem_cons.1 hx with h | h
      · subst h; simp_all
      · exact collapseWsAux_ws_space f cs x h hws

theorem collapseWsAux_head_eq :
    ∀ (f : Nat) (m : List Char), m.length < f →
      (∀ c, m.head? = some c → isWs c = false) →
      (collapseWsAux f m).head? = m.head?
  | 0, m, h, _ => by omega
  | _ + 1, [], _, _ => by simp [collapseWsAux]
  | f + 1, c :: cs, _, hh => by
    have := hh c (by rfl)
    simp [collapseWsAux, this]

theorem collapseWsAux_chain :
    ∀ (f : Nat) (l : List Char), l.length < f →
      (collapseWsAux f l).Chain' (fun a b => isWs a = false ∨ isWs b = false)
  | 0, l, h => by omega
  | _ + 1, [], _ => by simp [collapseWsAux]
  | f + 1, c :: cs, hlen => by
    simp only [collapseWsAux]
    have hlen' : cs.length < f := by simp at hlen; omega
    split
    · rw [List.chain'_cons']
      have hdlen : (cs.dropWhile isWs).length < f :=
        Nat.lt_of_le_of_lt (length_dropWhile_le' _ _) hlen'
      refine ⟨?_, collapseWsAux_chain f _ hdlen⟩
      intro y hy
      right
      have hhead : (collapseWsAux f (cs.dropWhile isWs)).head? =
          (cs.dropWhile isWs).head? :=
        collapseWsAux_head_eq f _ hdlen (fun d hd => dropWhile_head_not _ _ hd)
      rw [hhead] at hy
      exact dropWhile_head_not _ _ hy
    · rw [List.chain'_cons']
      refine ⟨fun y _ => Or.inl (by simp_all), collapseWsAux_chain f cs hlen'⟩

theorem collapseWs_ws_space {l : List Char} :
    ∀ c ∈ collapseWs l, isWs c = true → c = ' ' :=
  collapseWsAux_ws_space (l.length + 1) l

theorem collapseWs_chain (l : List Char) :
    (collapseWs l).Chain' (fun a b => isWs a = false ∨ isWs b = false) :=
  collapseWsAux_chain (l.length + 1) l (by omega)

theorem pyStrip_isInfix (l : List Char) : pyStrip l <:+: l := by
  have hA : l.dropWhile isWs <:+ l := List.dropWhile_suffix _
  have hB : (l.dropWhile isWs).reverse.dropWhile isWs <:+ (l.dropWhile isWs).reverse :=
    List.dropWhile_suffix _
  have hP : pyStrip l <+: l.dropWhile isWs := by
    unfold pyStrip
    rw [← List.reverse_suffix]
    simpa using hB
  exact hP.isInfix.trans hA.isInfix

theorem pyStrip_head_not_ws {l : List Char} {c : Char}
    (h : (pyStrip l).head? = some c) : isWs c = false := by
  unfold pyStrip at h
  rw [List.head?_reverse] at h
  rcases hB : (l.dropWhile isWs).reverse.dropWhile isWs with _ | ⟨b, bs⟩
  · rw [hB] at h; simp at h
  · obtain ⟨t, ht⟩ := List.dropWhile_suffix (l := (l.dropWhile isWs).reverse) isWs
    rw [hB] at h ht
    have hlast : (l.dropWhile isWs).reverse.getLast? = some c := by
      rw [← ht, List.getLast?_append]
      rw [h]
      rfl
    rw [List.getLast?_reverse] at hlast
    exact dropWhile_head_not _ _ hlast

theorem pyStrip_getLast_not_ws {l : List Char} {c : Char}
    (h : (pyStrip l).getLast? = some c) : isWs c = false := by
  unfold pyStrip at h
  rw [List.getLast?_reverse] at h
  exact dropWhile_head_not _ _ h

theorem pyStrip_eq_self {l : List Char}
    (h1 : ∀ c, l.head? = some c → isWs c = false)
    (h2 : ∀ c, l.getLast? = some c → isWs c = false) : pyStrip l = l := by
  unfold pyStrip
  rw [dropWhile_eq_self_of_head _ _ h1]
  rw [dropWhile_eq_self_of_head _ _
    (fun c hc => h2 c (by rw [← List.head?_reverse]; exact hc))]
  exact List.reverse_reverse l

theorem cleanText_ws_space {l : List Char} :
    ∀ c ∈ cleanText l, isWs c = true → c = ' ' := by
  intro c hc hws
  unfold cleanText at hc
  have : c ∈ collapseWs (subRun5 '-' (subRun5 '='
      (truncMarkers (subRoleStart (subRoleCode (subCharLabel l)))))) :=
    ((pyStrip_isInfix _).sublist.subset) hc
  exact collapseWs_ws_space c this hws

theorem cleanText_chain (l : List Char) :
    (cleanText l).Chain' (fun a b => isWs a = false ∨ isWs b = false) := by
  obtain ⟨s, t, heq⟩ := pyStrip_isInfix (collapseWs (subRun5 '-' (subRun5 '='
    (truncMarkers (subRoleStart (subRoleCode (subCharLabel l)))))))
  have hch := collapseWs_chain (subRun5 '-' (subRun5 '='
    (truncMarkers (subRoleStart (subRoleCode (subCharLabel l))))))
  rw [← heq] at hch
  exact (List.chain'_append.1 (List.chain'_append.1 hch).1).2.1

theorem cleanText_head_not_ws {l : List Char} {c : Char}
    (h : (cleanText l).head? = some c) : isWs c = false :=
  pyStrip_head_not_ws h

theorem cleanText_getLast_not_ws {l : List Char} {c : Char}
    (h : (cleanText l).getLast? = some c) : isWs c = false :=
  pyStrip_getLast_not_ws h

theorem cleanText_no_nl (l : List Char) : '\n' ∉ cleanText l := by
  intro hmem
  have := cleanText_ws_space '\n' hmem (by decide)
  exact absurd this (by decide)

/-! ## Idempotence of `clean_text` (claim C1)

Re-cleaning can find new matches created by earlier removals or by
whitespace collapsing (the counterexample below), so idempotence fails in
general.  It does hold whenever no rule can fire on the cleaned text;
the `finds…`/`occursIn` scans make that hypothesis decidable. -/

theorem subCharLabelAux_id :
    ∀ (f : Nat) (l : List Char), findsCharLabel l = false → l.length < f →
      subCharLabelAux f l = l
  | 0, l, _, h => by omega
  | _ + 1, [], _, _ => by simp [subCharLabelAux]
  | f + 1, c :: cs, hf, hlen => by
    simp only [findsCharLabel, Bool.or_eq_false_iff] at hf
    cases hmc : mCharLabel (c :: cs) with
    | some r => rw [hmc] at hf; simp at hf
    | none =>
      simp only [subCharLabelAux, hmc]
      rw [subCharLabelAux_id f cs hf.2 (by simp at hlen; omega)]

theorem subRoleCodeAux_id :
    ∀ (f : Nat) (l : List Char), findsRoleCode l = false → l.length < f →
      subRoleCodeAux f l = l
  | 0, l, _, h => by omega
  | _ + 1, [], _, _ => by simp [subRoleCodeAux]
  | f + 1, c :: cs, hf, hlen => by
    simp only [findsRoleCode, Bool.or_eq_false_iff] at hf
    cases hmc : mRoleCode (c :: cs) with
    | some r => rw [hmc] at hf; simp at hf
    | none =>
      simp only [subRoleCodeAux, hmc]
      rw [subRoleCodeAux_id f cs hf.2 (by simp at hlen; omega)]

theorem subRun5Aux_id :
    ∀ (x : Char) (f : Nat) (l : List Char), findsRun5 x l = false → l.length < f →
      subRun5Aux x f l = l
  | _, 0, l, _, h => by omega
  | _, _ + 1, [], _, _ => by simp [subRun5Aux]
  | x, f + 1, c :: cs, hf, hlen => by
    simp only [findsRun5, Bool.or_eq_false_iff] at hf
    cases hmc : mRun5 x (c :: cs) with
    | some r => rw [hmc] at hf; simp at hf
    | none =>
      simp only [subRun5Aux, hmc]
      rw [subRun5Aux_id x f cs hf.2 (by simp at hlen; omega)]

theorem truncAt_id : ∀ (m l : List Char), occursIn m l = false → truncAt m l = l
  | _, [], _ => rfl
  | m, c :: cs, h => by
    simp only [occursIn, Bool.or_eq_false_iff] at h
    simp only [truncAt, h.1]
    rw [truncAt_id m cs h.2]
    simp [h.1]

theorem foldl_truncAt_id :
    ∀ (ms : List (List Char)) (l : List Char), (∀ m ∈ ms, occursIn m l = false) →
      ms.foldl (fun t m => truncAt m t) l = l
  | [], _, _ => rfl
  | m :: ms, l, h => by
    simp only [List.foldl_cons]
    rw [truncAt_id m l (h m (by simp))]
    exact foldl_truncAt_id ms l (fun m' hm' => h m' (by simp [hm']))

theorem collapseWsAux_eq_self :
    ∀ (f : Nat) (l : List Char), l.length < f →
      (∀ c ∈ l, isWs c = true → c = ' ') →
      l.Chain' (fun a b => isWs a = false ∨ isWs b = false) →
      collapseWsAux f l = l
  | 0, l, h, _, _ => by omega
  | _ + 1, [], _, _, _ => by simp [collapseWsAux]
  | f + 1, c :: cs, hlen, hsp, hch => by
    have hlen' : cs.length < f := by simp at hlen; omega
    rw [List.chain'_cons'] at hch
    simp only [collapseWsAux]
    split
    case isTrue hc =>
      have hcsp : c = ' ' := hsp c (by simp) hc
      have hdrop : cs.dropWhile isWs = cs := by
        apply dropWhile_eq_self_of_head
        intro d hd
        rcases hch.1 d hd with h | h
        · rw [h] at hc; cases hc
        · exact h
      rw [hdrop, hcsp,
        collapseWsAux_eq_self f cs hlen' (fun d hd => hsp d (by simp [hd])) hch.2]
    case isFalse hc =>
      rw [collapseWsAux_eq_self f cs hlen' (fun d hd => hsp d (by simp [hd])) hch.2]

/-- Claim C1 (counterexample): `clean_text` is not idempotent.  On
`"ITEM\nb"` the first pass collapses the newline to a space, creating the
metadata marker `"ITEM "`; the second pass truncates there, giving the
empty string. -/
theorem claim_C1_counterexample :
    cleanText (cleanText "ITEM\nb".toList) ≠ cleanText "ITEM\nb".toList := by decide

/-- Claim C1 (amended): cleaning is a no-op on an already-cleaned text as
long as none of the removal rules, truncation markers, or section-run
rules of `clean_text` can fire anywhere in the cleaned text; under those
(decidable) hypotheses `clean_text (clean_text x) = clean_text x`. -/
theorem claim_C1_amended (l : List Char)
    (h1 : findsCharLabel (cleanText l) = false)
    (h2 : findsRoleCode (cleanText l) = false)
    (h3 : mRoleStart (cleanText l) = none)
    (h4 : ∀ m ∈ markers, occursIn m (cleanText l) = false)
    (h5 : findsRun5 '=' (cleanText l) = false)
    (h6 : findsRun5 '-' (cleanText l) = false) :
    cleanText (cleanText l) = cleanText l := by
  have hsub1 : subCharLabel (cleanText l) = cleanText l :=
    subCharLabelAux_id _ _ h1 (by omega)
  have hsub2 : subRoleCode (cleanText l) = cleanText l :=
    subRoleCodeAux_id _ _ h2 (by omega)
  have hsub3 : subRoleStart (cleanText l) = cleanText l := by
    unfold subRoleStart
    rw [h3]
    rfl
  have hsub4 : truncMarkers (cleanText l) = cleanText l :=
    foldl_truncAt_id markers _ h4
  have hsub5 : subRun5 '=' (cleanText l) = cleanText l :=
    subRun5Aux_id '=' _ _ h5 (by omega)
  have hsub6 : subRun5 '-' (cleanText l) = cleanText l :=
    subRun5Aux_id '-' _ _ h6 (by omega)
  have hcol : collapseWs (cleanText l) = cleanText l :=
    collapseWsAux_eq_self _ _ (by omega)
      (fun c hc => cleanText_ws_space c hc) (cleanText_chain l)
  conv_lhs => rw [cleanText, hsub1, hsub2, hsub3, hsub4, hsub5, hsub6, hcol]
  exact pyStrip_eq_self (fun c hc => cleanText_head_not_ws hc)
    (fun c hc => cleanText_getLast_not_ws hc)

/-- Witness for the amended claim C1 at a concrete input. -/
theorem claim_C1_amended_witness :
    cleanText (cleanText "Hello world.".toList) = cleanText "Hello world.".toList :=
  claim_C1_amended "Hello world.".toList (by decide) (by decide) (by decide)
    (by decide) (by decide) (by decide)

/-- Claim C8: the truncation-marker example of the specification:
`clean_text` cuts `Go now. You are A; continue the scene.` at the first
occurrence of `You are A;` and strips, giving `Go now.`. -/
theorem claim_C8 :
    cleanText "Go now. You are A; continue the scene.".toList = "Go now.".toList := by
  decide

/-! ## The fallback pass (claim C3) -/

/-- Claim C3: the fallback standalone-SCENARIO pass never appends an entry
whose line number is already present in the accumulated collection, and
the entries it does append carry pairwise-distinct numbers. -/
theorem claim_C3 (ms acc : List (Nat × List Char)) :
    ∃ extra, fallbackPass acc ms = acc ++ extra ∧
      (extra.map Prod.fst).Nodup ∧
      ∀ e ∈ extra, e.1 ∉ acc.map Prod.fst := by
  induction ms generalizing acc with
  | nil => exact ⟨[], by simp [fallbackPass]⟩
  | cons m ms ih =>
    by_cases hm : m.1 ∈ acc.map Prod.fst
    · have hstep : fallbackPass acc (m :: ms) = fallbackPass acc ms := by
        simp [fallbackPass, addIfNew, hm]
      rw [hstep]
      exact ih acc
    · have hstep : fallbackPass acc (m :: ms) = fallbackPass (acc ++ [m]) ms := by
        simp [fallbackPass, addIfNew, hm]
      rw [hstep]
      obtain ⟨extra, he, hnd, hnotin⟩ := ih (acc ++ [m])
      refine ⟨m :: extra, by simpa using he, ?_, ?_⟩
      · simp only [List.map_cons, List.nodup_cons]
        refine ⟨?_, hnd⟩
        intro hmem
        obtain ⟨e, hemem, heq⟩ := List.mem_map.1 hmem
        have := hnotin e hemem
        simp only [List.map_append, List.map_cons, List.map_nil, List.mem_append,
          List.mem_cons, List.not_mem_nil, or_false, not_or] at this
        exact this.2 heq
      · intro e hemem
        rcases List.mem_cons.1 hemem with h | h
        · subst h
          exact hm
        · have := hnotin e h
          simp only [List.map_append, List.map_cons, List.map_nil, List.mem_append,
            List.mem_cons, List.not_mem_nil, or_false, not_or] at this
          exact this.1

/-! ## Sorting, deduplication and the output (claims C4 and C5) -/

theorem dedupFirst_sublist :
    ∀ (l : List (Nat × List Char)) (seen : List Nat),
      List.Sublist (dedupFirst l seen) l := by
  intro l
  induction l with
  | nil => intro seen; simp [dedupFirst]
  | cons e es ih =>
    intro seen
    simp only [dedupFirst]
    split
    · exact (ih seen).trans (List.sublist_cons_self e es)
    · exact (ih (e.1 :: seen)).cons₂ e

theorem dedupFirst_pairwise :
    ∀ (l : List (Nat × List Char)) (seen : List Nat), l.Pairwise entryLE →
      ((dedupFirst l seen).map Prod.fst).Pairwise (· < ·) ∧
      (∀ n ∈ (dedupFirst l seen).map Prod.fst, n ∉ seen) := by
  intro l
  induction l with
  | nil => intro seen _; simp [dedupFirst]
  | cons e es ih =>
    intro seen hp
    rw [List.pairwise_cons] at hp
    simp only [dedupFirst]
    split
    case isTrue h => exact ih seen hp.2
    case isFalse h =>
      obtain ⟨ihp, ihs⟩ := ih (e.1 :: seen) hp.2
      constructor
      · simp only [List.map_cons, List.pairwise_cons]
        refine ⟨?_, ihp⟩
        intro n hn
        have hne : n ∉ (e.1 :: seen) := ihs n hn
        obtain ⟨x, hx, hxn⟩ := List.mem_map.1 hn
        have hxes : x ∈ es := (dedupFirst_sublist es (e.1 :: seen)).subset hx
        have hle : e.1 ≤ x.1 := hp.1 x hxes
        simp only [List.mem_cons, not_or] at hne
        omega
      · intro n hn
        simp only [List.map_cons, List.mem_cons] at hn
        rcases hn with hh | hh
        · subst hh
          exact h
        · have := ihs n hh
          simp only [List.mem_cons, not_or] at this
          exact this.2

theorem dedupFirst_filter_seen :
    ∀ (l : List (Nat × List Char)) (seen : List Nat) (n : Nat), n ∈ seen →
      (dedupFirst l seen).filter (fun x => x.1 == n) = [] := by
  intro l
  induction l with
  | nil => intro seen n _; simp [dedupFirst]
  | cons e es ih =>
    intro seen n hn
    simp only [dedupFirst]
    split
    case isTrue h => exact ih seen n hn
    case isFalse h =>
      rw [List.filter_cons]
      have hne : (e.1 == n) = false := by
        simp only [beq_eq_false_iff_ne, ne_eq]
        intro hc
        rw [hc] at h
        exact h hn
      simp only [hne, Bool.false_eq_true, if_false]
      exact ih (e.1 :: seen) n (by simp [hn])

theorem dedupFirst_filter :
    ∀ (l : List (Nat × List Char)) (seen : List Nat) (n : Nat), n ∉ seen →
      (dedupFirst l seen).filter (fun x => x.1 == n) =
        (l.find? (fun x => x.1 == n)).toList := by
  intro l
  induction l with
  | nil => intro seen n _; simp [dedupFirst]
  | cons e es ih =>
    intro seen n hn
    simp only [dedupFirst]
    split
    case isTrue h =>
      have hne : (e.1 == n) = false := by
        simp only [beq_eq_false_iff_ne, ne_eq]
        intro hc
        rw [hc] at h
        exact hn h
      rw [List.find?_cons_of_neg _ (by simp [hne])]
      exact ih seen n hn
    case isFalse h =>
      by_cases he : e.1 = n
      · have hpe : (e.1 == n) = true := by simp [he]
        rw [List.find?_cons_of_pos _ (by simp [hpe]), List.filter_cons]
        simp only [hpe, if_true]
        rw [dedupFirst_filter_seen es (e.1 :: seen) n (by simp [he])]
        rfl
      · have hpe : (e.1 == n) = false := by simp [he]
        rw [List.find?_cons_of_neg _ (by simp [hpe]), List.filter_cons]
        simp only [hpe, Bool.false_eq_true, if_false]
        apply ih (e.1 :: seen) n
        simp only [List.mem_cons, not_or]
        exact ⟨fun hc => he hc.symm, hn⟩

theorem pySort_pairwise (es : List (Nat × List Char)) :
    (pySortEntries es).Pairwise entryLE :=
  List.sorted_insertionSort entryLE es

theorem pySort_filter_key (es : List (Nat × List Char)) (n : Nat) :
    (pySortEntries es).filter (fun x => x.1 == n) = es.filter (fun x => x.1 == n) := by
  have hpair : (es.filter (fun x => x.1 == n)).Pairwise entryLE := by
    apply List.pairwise_of_forall_mem_list
    intro a ha b hb
    have ha' : a.1 = n := by simpa using List.of_mem_filter ha
    have hb' : b.1 = n := by simpa using List.of_mem_filter hb
    unfold entryLE
    omega
  have hsub : List.Sublist (es.filter (fun x => x.1 == n)) es := List.filter_sublist es
  have hstab : List.Sublist (es.filter (fun x => x.1 == n)) (pySortEntries es) :=
    List.sublist_insertionSort hpair hsub
  have hperm : List.Perm (pySortEntries es) es := List.perm_insertionSort entryLE es
  have hpf : List.Perm ((pySortEntries es).filter (fun x => x.1 == n))
      (es.filter (fun x => x.1 == n)) := hperm.filter _
  have hsub2 := hstab.filter (fun x => x.1 == n)
  have hself : (es.filter (fun x => x.1 == n)).filter (fun x => x.1 == n) =
      es.filter (fun x => x.1 == n) := by
    rw [List.filter_eq_self]
    intro a ha
    have h2 := List.of_mem_filter ha
    simpa using h2
  rw [hself] at hsub2
  exact (hsub2.eq_of_length hpf.length_eq.symm).symm

theorem pySort_find_key (es : List (Nat × List Char)) (n : Nat) :
    (pySortEntries es).find? (fun x => x.1 == n) = es.find? (fun x => x.1 == n) := by
  rw [← List.filter_head?, ← List.filter_head?, pySort_filter_key]

/-- Claim C5: when a collected line number occurs (in particular when it is
shared by several entries), exactly one entry with that number survives
deduplication, namely the first one in collection order: the sort is
stable and the dedup loop keeps only the first occurrence of each
number. -/
theorem claim_C5 (es : List (Nat × List Char)) (n : Nat)
    (h : n ∈ es.map Prod.fst) :
    ∃ e, es.find? (fun x => x.1 == n) = some e ∧
      (uniqueEntries es).filter (fun x => x.1 == n) = [e] := by
  have hsome : (es.find? (fun x => x.1 == n)).isSome := by
    rw [List.find?_isSome]
    obtain ⟨x, hx, hxn⟩ := List.mem_map.1 h
    exact ⟨x, hx, by simp [hxn]⟩
  obtain ⟨e, he⟩ := Option.isSome_iff_exists.1 hsome
  refine ⟨e, he, ?_⟩
  unfold uniqueEntries
  rw [dedupFirst_filter _ [] n (by simp), pySort_find_key, he]
  rfl

/-- Witness for claim C5: among two entries numbered 3 the earlier one
survives. -/
theorem claim_C5_witness :
    3 ∈ ([(3, "b".toList), (3, "a".toList)] : List (Nat × List Char)).map Prod.fst ∧
    ∃ e, ([(3, "b".toList), (3, "a".toList)] :
        List (Nat × List Char)).find? (fun x => x.1 == 3) = some e ∧
      (uniqueEntries [(3, "b".toList), (3, "a".toList)]).filter
        (fun x => x.1 == 3) = [e] :=
  ⟨by decide, claim_C5 [(3, "b".toList), (3, "a".toList)] 3 (by decide)⟩

/-- Claim C4: for every input, the line numbers of the entries that make
up the final output file are strictly increasing from top to bottom, and
the output content is exactly those entries formatted and joined. -/
theorem claim_C4 (contents : List (List Char)) :
    ((outEntries (allEntries contents)).map Prod.fst).Pairwise (· < ·) ∧
    outputContent contents =
      List.intercalate ['\n'] ((outEntries (allEntries contents)).map fmtEntry) := by
  constructor
  · have hp := (dedupFirst_pairwise (pySortEntries (allEntries contents)) []
      (pySort_pairwise _)).1
    have hsub : List.Sublist (outEntries (allEntries contents))
        (uniqueEntries (allEntries contents)) := List.filter_sublist _
    exact hp.sublist (hsub.map Prod.fst)
  · rfl

/-! ## The concrete extraction examples (claims C2 and C7) -/

/-- Claim C2 (counterexample): an input file whose single line is
`Narrator: 12 Welcome to the show [apologetically]` produces no entry at
all — the line does not start with digits, so the collector never fires —
and the output file is empty; in particular there is no entry numbered
12. -/
theorem claim_C2_counterexample :
    allEntries ["Narrator: 12 Welcome to the show [apologetically]\n".toList] = [] ∧
    outputContent ["Narrator: 12 Welcome to the show [apologetically]\n".toList] = [] := by
  constructor
  · decide
  · decide

/-- Claim C2 (amended): with the number first — input line
`12 Narrator: Welcome to the show [apologetically]` — the script collects
entry 12 with the role label still attached, and the cleaned output line
is `12  Welcome to the show [apologetically]`. -/
theorem claim_C2_amended :
    allEntries ["12 Narrator: Welcome to the show [apologetically]\n".toList] =
      [(12, "Narrator: Welcome to the show [apologetically]".toList)] ∧
    outputContent ["12 Narrator: Welcome to the show [apologetically]\n".toList] =
      "12  Welcome to the show [apologetically]".toList := by
  constructor
  · decide
  · decide

/-- Claim C7: the dashed-monologue example: pattern 1 extracts entry 7
with the two body lines joined by single spaces, and the whole pipeline
emits exactly that line. -/
theorem claim_C7 :
    patEntries monologuePat1
        "--- MONOLOGUE ---\n7 SCENARIO: intro\n=====\nHello there.\nI am fine.\n".toList =
      [(7, "Hello there. I am fine.".toList)] ∧
    outputContent
        ["--- MONOLOGUE ---\n7 SCENARIO: intro\n=====\nHello there.\nI am fine.\n".toList] =
      "7  Hello there. I am fine.".toList := by
  constructor
  · decide
  · decide

/-! ## Output-line format (claim C6) -/

/-- Claim C6: every line of the output file is a decimal number, exactly
two spaces, and a non-empty cleaned text that contains no newline, no two
adjacent whitespace characters, and no leading or trailing whitespace; an
entry whose cleaned text is empty contributes no line. -/
theorem claim_C6 (contents : List (List Char)) :
    (∀ line ∈ outputLines (allEntries contents),
      ∃ n t, (n, t) ∈ uniqueEntries (allEntries contents) ∧
        cleanText t ≠ [] ∧
        line = natDigits n ++ ' ' :: ' ' :: cleanText t ∧
        '\n' ∉ cleanText t ∧
        (cleanText t).Chain' (fun a b => isWs a = false ∨ isWs b = false) ∧
        (∀ c, (cleanText t).head? = some c → isWs c = false) ∧
        (∀ c, (cleanText t).getLast? = some c → isWs c = false)) ∧
    outputLines (allEntries contents) =
      ((uniqueEntries (allEntries contents)).filter
        (fun e => decide (cleanText e.2 ≠ []))).map fmtEntry := by
  refine ⟨?_, rfl⟩
  intro line hline
  unfold outputLines at hline
  obtain ⟨e, he, hfmt⟩ := List.mem_map.1 hline
  obtain ⟨n, t⟩ := e
  have hmem : (n, t) ∈ uniqueEntries (allEntries contents) :=
    (List.filter_sublist _).subset he
  have hne : cleanText t ≠ [] := by
    have := List.of_mem_filter he
    simpa using this
  refine ⟨n, t, hmem, hne, ?_, cleanText_no_nl t, cleanText_chain t,
    fun c hc => cleanText_head_not_ws hc, fun c hc => cleanText_getLast_not_ws hc⟩
  rw [← hfmt]
  show fmtEntry (n, t) = _
  unfold fmtEntry
  rw [List.append_assoc]
  rfl

/-- Witness for claim C6 at a concrete input and output line. -/
theorem claim_C6_witness :
    ∃ n t, (n, t) ∈ uniqueEntries (allEntries
        ["12 Narrator: Welcome to the show [apologetically]\n".toList]) ∧
      cleanText t ≠ [] ∧
      "12  Welcome to the show [apologetically]".toList =
        natDigits n ++ ' ' :: ' ' :: cleanText t ∧
      '\n' ∉ cleanText t ∧
      (cleanText t).Chain' (fun a b => isWs a = false ∨ isWs b = false) ∧
      (∀ c, (cleanText t).head? = some c → isWs c = false) ∧
      (∀ c, (cleanText t).getLast? = some c → isWs c = false) :=
  (claim_C6 ["12 Narrator: Welcome to the show [apologetically]\n".toList]).1
    "12  Welcome to the show [apologetically]".toList (by decide)

/-! ## The offset renumbering script (claims C9 and C10)

The key fact is the per-line characterization `addOffset_lines`:
`addOffset` acts on the newline-split segments of the content exactly as
`procSeg` describes, preserving the number of segments. -/

theorem splitNl_ne_nil : ∀ l : List Char, splitNl l ≠ []
  | [] => by simp [splitNl]
  | c :: cs => by
    have := splitNl_ne_nil cs
    simp only [splitNl]
    split
    · simp
    · split
      · simp
      · simp

theorem splitNl_no_nl : ∀ l : List Char, '\n' ∉ l → splitNl l = [l]
  | [], _ => rfl
  | c :: cs, h => by
    have hc : ¬(c == '\n') = true := by
      simp only [beq_iff_eq]
      intro hh
      exact h (by simp [hh])
    have hcs := splitNl_no_nl cs (fun hm => h (by simp [hm]))
    simp only [splitNl, hcs]
    simp only [Bool.not_eq_true] at hc
    rw [hc]
    simp

theorem splitNl_append : ∀ (a b : List Char), '\n' ∉ a →
    splitNl (a ++ '\n' :: b) = a :: splitNl b
  | [], b, _ => by simp [splitNl]
  | c :: cs, b, h => by
    have hc : (c == '\n') = false := by
      simp only [beq_eq_false_iff_ne, ne_eq]
      intro hh
      exact h (by simp [hh])
    have ih := splitNl_append cs b (fun hm => h (by simp [hm]))
    simp only [List.cons_append, splitNl, hc, Bool.false_eq_true, if_false,
      List.append_eq]
    rw [ih]

theorem splitNl_seg_no_nl : ∀ (l seg : List Char), seg ∈ splitNl l → '\n' ∉ seg
  | [], seg, h => by
    simp [splitNl] at h
    subst h
    simp
  | c :: cs, seg, h => by
    by_cases hc : c = '\n'
    · subst hc
      simp only [splitNl, beq_self_eq_true, if_true, List.mem_cons] at h
      rcases h with h | h
      · subst h; simp
      · exact splitNl_seg_no_nl cs seg h
    · have hcb : (c == '\n') = false := by simp [hc]
      simp only [splitNl, hcb, Bool.false_eq_true, if_false] at h
      rcases hsp : splitNl cs with _ | ⟨l0, ls⟩
      · exact absurd hsp (splitNl_ne_nil cs)
      · rw [hsp] at h
        simp only [List.mem_cons] at h
        rcases h with h | h
        · subst h
          intro hm
          rcases List.mem_cons.1 hm with hh | hh
          · exact hc hh.symm
          · exact splitNl_seg_no_nl cs l0 (by simp [hsp]) hh
        · exact splitNl_seg_no_nl cs seg (by simp [hsp, h])

theorem splitNl_length : ∀ l : List Char, (splitNl l).length = l.count '\n' + 1
  | [] => by simp [splitNl]
  | c :: cs => by
    have ih := splitNl_length cs
    by_cases hc : c = '\n'
    · subst hc
      simp only [splitNl, beq_self_eq_true, if_true, List.length_cons, ih]
      rw [List.count_cons_self]
    · have hcb : (c == '\n') = false := by simp [hc]
      simp only [splitNl, hcb, Bool.false_eq_true, if_false]
      have hcnt : (c :: cs).count '\n' = cs.count '\n' := by
        simp [List.count_cons, hc]
      rw [hcnt]
      rcases hsp : splitNl cs with _ | ⟨l0, ls⟩
      · exact absurd hsp (splitNl_ne_nil cs)
      · rw [hsp] at ih
        simp only [List.length_cons] at ih ⊢
        omega

theorem digit_char_range : ∀ d : Nat, d < 10 → isDigitCh (Char.ofNat (48 + d)) = true := by
  decide

theorem natDigitsAux_digits :
    ∀ (f n : Nat), ∀ c ∈ natDigitsAux f n, isDigitCh c = true
  | 0, _ => by simp [natDigitsAux]
  | f + 1, n => by
    intro c hc
    simp only [natDigitsAux] at hc
    split at hc
    case isTrue h =>
      simp only [List.mem_singleton] at hc
      subst hc
      exact digit_char_range n h
    case isFalse h =>
      rcases List.mem_append.1 hc with hm | hm
      · exact natDigitsAux_digits f (n / 10) c hm
      · simp only [List.mem_singleton] at hm
        subst hm
        exact digit_char_range (n % 10) (Nat.mod_lt _ (by omega))

theorem natDigits_digits {n : Nat} : ∀ c ∈ natDigits n, isDigitCh c = true :=
  natDigitsAux_digits (n + 1) n

theorem ws_not_digit {c : Char} (h : isWs c = true) : isDigitCh c = false := by
  unfold isWs at h
  unfold isDigitCh
  simp only [Bool.or_eq_true, beq_iff_eq, Bool.and_eq_true, decide_eq_true_eq] at h
  simp only [Bool.and_eq_false_iff, decide_eq_false_iff_not, not_le]
  rcases h with h | h
  · subst h
    left
    decide
  · omega

theorem natDigits_no_nl (n : Nat) : '\n' ∉ natDigits n := by
  intro h
  have := natDigits_digits '\n' h
  exact absurd this (by decide)

theorem natDigits_not_ws {n : Nat} {c : Char} (h : c ∈ natDigits n) : isWs c = false := by
  by_cases hw : isWs c = true
  · have := ws_not_digit hw
    rw [natDigits_digits c h] at this
    cases this
  · simpa using hw

theorem takeWhile_append_eq {p : α → Bool} {w : α} (ds rest : List α)
    (h : ∀ c ∈ ds, p c = true) (hw : p w = false) :
    (ds ++ w :: rest).takeWhile p = ds ∧ (ds ++ w :: rest).dropWhile p = w :: rest := by
  induction ds with
  | nil => simp [List.takeWhile, List.dropWhile, hw]
  | cons d ds ih =>
    have hd : p d = true := h d (by simp)
    have := ih (fun c hc => h c (by simp [hc]))
    simp only [List.cons_append, List.takeWhile_cons, List.dropWhile_cons, hd, if_true]
    simp [this.1, this.2]

theorem mNumWs_some_decomp {l ds rest : List Char} {w : Char}
    (h : mNumWs l = some (ds, w, rest)) :
    l = ds ++ w :: rest ∧ ds ≠ [] ∧ (∀ c ∈ ds, isDigitCh c = true) ∧
      isWs w = true ∧ ds = l.takeWhile isDigitCh := by
  unfold mNumWs at h
  split at h
  · exact absurd h (by simp)
  · rename_i hlen
    split at h
    case h_1 w' rest' hdrop =>
      split at h
      case isTrue hws =>
        simp only [Option.some.injEq, Prod.mk.injEq] at h
        obtain ⟨h1, h2, h3⟩ := h
        subst h1; subst h2; subst h3
        refine ⟨?_, ?_, ?_, hws, rfl⟩
        · conv_lhs => rw [← List.takeWhile_append_dropWhile (p := isDigitCh) (l := l)]
          rw [hdrop]
        · intro hc
          rw [hc] at hlen
          simp at hlen
        · intro c hc
          exact List.mem_takeWhile_imp hc
      case isFalse => exact absurd h (by simp)
    case h_2 => exact absurd h (by simp)

theorem mNumWs_of_decomp {ds rest : List Char} {w : Char} (hne : ds ≠ [])
    (hds : ∀ c ∈ ds, isDigitCh c = true) (hw : isWs w = true) :
    mNumWs (ds ++ w :: rest) = some (ds, w, rest) := by
  obtain ⟨ht, hd⟩ := takeWhile_append_eq ds rest hds (ws_not_digit hw)
  unfold mNumWs
  rw [ht, hd]
  have : ds.length ≠ 0 := by simpa using fun hc => hne (List.length_eq_zero.1 hc)
  simp [this, hw]

theorem mNumWs_rest_length {l ds rest : List Char} {w : Char}
    (h : mNumWs l = some (ds, w, rest)) : rest.length < l.length := by
  have := (mNumWs_some_decomp h).1
  rw [this]
  simp only [List.length_append, List.length_cons]
  omega

theorem mNumWs_append_some {l ds rest t : List Char} {w : Char}
    (h : mNumWs l = some (ds, w, rest)) :
    mNumWs (l ++ t) = some (ds, w, rest ++ t) := by
  obtain ⟨hl, hne, hds, hw, -⟩ := mNumWs_some_decomp h
  rw [hl, List.append_assoc]
  exact mNumWs_of_decomp hne hds hw

theorem mNumWs_all_digits {l rest : List Char} (hne : l ≠ [])
    (hall : ∀ c ∈ l, isDigitCh c = true) :
    mNumWs (l ++ '\n' :: rest) = some (l, '\n', rest) :=
  mNumWs_of_decomp hne hall (by decide)

theorem dropWhile_nil_all {p : α → Bool} {l : List α} (h : l.dropWhile p = [])
    (c : α) (hc : c ∈ l) : p c = true := by
  have : l = l.takeWhile p := by
    conv_lhs => rw [← List.takeWhile_append_dropWhile (p := p) (l := l)]
    rw [h, List.append_nil]
  rw [this] at hc
  exact List.mem_takeWhile_imp hc

theorem mNumWs_none_append {seg rest : List Char} (hseg : mNumWs seg = none)
    (hnd : ¬(seg ≠ [] ∧ ∀ c ∈ seg, isDigitCh c = true)) :
    mNumWs (seg ++ '\n' :: rest) = none := by
  by_cases hall : seg.dropWhile isDigitCh = []
  · cases hsegnil : seg with
    | nil =>
      subst hsegnil
      unfold mNumWs
      have hnl : isDigitCh '\n' = false := by decide
      simp [List.takeWhile_cons, hnl]
    | cons c cs =>
      exfalso
      apply hnd
      exact ⟨by simp [hsegnil], fun x hx => dropWhile_nil_all hall x hx⟩
  · rcases hdrop : seg.dropWhile isDigitCh with _ | ⟨w', r'⟩
    · exact absurd hdrop hall
    · have hw'd : isDigitCh w' = false := by
        apply dropWhile_head_not isDigitCh seg
        rw [hdrop]
        rfl
      have hsegeq : seg = seg.takeWhile isDigitCh ++ w' :: r' := by
        conv_lhs => rw [← List.takeWhile_append_dropWhile (p := isDigitCh) (l := seg)]
        rw [hdrop]
      have hre : seg ++ '\n' :: rest =
          seg.takeWhile isDigitCh ++ w' :: (r' ++ '\n' :: rest) := by
        conv_lhs => rw [hsegeq]
        simp
      obtain ⟨htw, hdw⟩ := takeWhile_append_eq (p := isDigitCh)
        (seg.takeWhile isDigitCh) (r' ++ '\n' :: rest)
        (fun c hc => List.mem_takeWhile_imp hc) hw'd
      by_cases h0 : ((seg ++ '\n' :: rest).takeWhile isDigitCh).length = 0
      · unfold mNumWs
        simp [h0]
      · have hws' : isWs w' = false := by
          unfold mNumWs at hseg
          rw [hdrop] at hseg
          have h0' : (seg.takeWhile isDigitCh).length ≠ 0 := by
            rw [hre, htw] at h0
            exact h0
          simp only [h0', if_false] at hseg
          split at hseg
          · exact absurd hseg (by simp)
          · rename_i hx
            simpa using hx
        unfold mNumWs
        rw [hre, htw, hdw]
        have h0' : (seg.takeWhile isDigitCh).length ≠ 0 := by
          rw [hre, htw] at h0
          exact h0
        simp [h0', hws']

theorem addOffAux_false_cons (f : Nat) (c : Char) (cs : List Char) :
    addOffAux (f + 1) false (c :: cs) = c :: addOffAux f (c == '\n') cs := rfl

theorem addOffAux_true_of_none {f : Nat} {c : Char} {cs : List Char}
    (h : mNumWs (c :: cs) = none) :
    addOffAux (f + 1) true (c :: cs) = c :: addOffAux f (c == '\n') cs := by
  simp only [addOffAux, h]

theorem addOffAux_true_of_some {f : Nat} {l ds rest : List Char} {w : Char}
    (h : mNumWs l = some (ds, w, rest)) :
    addOffAux (f + 1) true l =
      natDigits (digitsToNat ds + OFFSET) ++ w :: addOffAux f (w == '\n') rest := by
  obtain ⟨hl, hne, -, -, -⟩ := mNumWs_some_decomp h
  rcases hds : ds with _ | ⟨d0, ds'⟩
  · exact absurd hds hne
  · subst hds
    subst hl
    rw [List.cons_append] at h ⊢
    simp only [addOffAux, h]

theorem addOffAux_congr :
    ∀ (f f' : Nat) (b : Bool) (l : List Char), l.length < f → l.length < f' →
      addOffAux f b l = addOffAux f' b l
  | 0, _, _, _, h, _ => by omega
  | _ + 1, 0, _, _, _, h' => by omega
  | _ + 1, _ + 1, b, [], _, _ => by cases b <;> rfl
  | f + 1, f' + 1, true, c :: cs, h, h' => by
    cases hm : mNumWs (c :: cs) with
    | some x =>
      obtain ⟨ds, w, rest⟩ := x
      have hlen : rest.length < cs.length + 1 := by
        simpa using mNumWs_rest_length hm
      simp only [List.length_cons] at h h'
      rw [addOffAux_true_of_some hm, addOffAux_true_of_some hm,
        addOffAux_congr f f' (w == '\n') rest (by omega) (by omega)]
    | none =>
      simp only [List.length_cons] at h h'
      rw [addOffAux_true_of_none hm, addOffAux_true_of_none hm,
        addOffAux_congr f f' (c == '\n') cs (by omega) (by omega)]
  | f + 1, f' + 1, false, c :: cs, h, h' => by
    simp only [List.length_cons] at h h'
    rw [addOffAux_false_cons, addOffAux_false_cons,
      addOffAux_congr f f' (c == '\n') cs (by omega) (by omega)]

theorem addOffAux_false_no_nl :
    ∀ (f : Nat) (l : List Char), l.length < f → '\n' ∉ l → addOffAux f false l = l
  | 0, _, h, _ => by omega
  | _ + 1, [], _, _ => rfl
  | f + 1, c :: cs, h, hnl => by
    rw [addOffAux_false_cons]
    have hc : (c == '\n') = false := by
      simp only [beq_eq_false_iff_ne, ne_eq]
      intro hh
      exact hnl (by simp [hh])
    rw [hc, addOffAux_false_no_nl f cs (by simp at h; omega)
      (fun hm => hnl (by simp [hm]))]

theorem addOffAux_true_no_nl :
    ∀ (f : Nat) (l : List Char), l.length < f → '\n' ∉ l →
      addOffAux f true l = procSeg true l
  | 0, _, h, _ => by omega
  | _ + 1, [], _, _ => rfl
  | f + 1, c :: cs, h, hnl => by
    cases hm : mNumWs (c :: cs) with
    | some x =>
      obtain ⟨ds, w, rest⟩ := x
      obtain ⟨hl, hne, hds, hw, -⟩ := mNumWs_some_decomp hm
      have hwnl : (w == '\n') = false := by
        simp only [beq_eq_false_iff_ne, ne_eq]
        intro hh
        subst hh
        exact hnl (by rw [hl]; simp)
      have hrest : '\n' ∉ rest := fun hm2 => hnl (by rw [hl]; simp [hm2])
      have hlen : rest.length < cs.length + 1 := by
        simpa using mNumWs_rest_length hm
      rw [addOffAux_true_of_some hm, hwnl,
        addOffAux_false_no_nl f rest (by simp at h; omega) hrest]
      unfold procSeg
      rw [hm]
    | none =>
      have hc : (c == '\n') = false := by
        simp only [beq_eq_false_iff_ne, ne_eq]
        intro hh
        exact hnl (by simp [hh])
      rw [addOffAux_true_of_none hm, hc,
        addOffAux_false_no_nl f cs (by simp at h; omega)
          (fun hm2 => hnl (by simp [hm2]))]
      unfold procSeg
      rw [hm]
      simp

theorem addOffAux_false_append :
    ∀ (f : Nat) (seg rest : List Char), (seg ++ '\n' :: rest).length < f →
      '\n' ∉ seg →
      addOffAux f false (seg ++ '\n' :: rest) =
        seg ++ '\n' :: addOffAux (rest.length + 1) true rest
  | 0, seg, rest, h, _ => by simp at h
  | f + 1, [], rest, h, _ => by
    simp only [List.nil_append]
    rw [addOffAux_false_cons]
    rw [show (('\n' : Char) == '\n') = true from rfl]
    simp only [List.length_cons, List.nil_append] at h
    rw [addOffAux_congr f (rest.length + 1) true rest (by omega) (by omega)]
  | f + 1, c :: seg, rest, h, hnl => by
    simp only [List.cons_append]
    rw [addOffAux_false_cons]
    have hc : (c == '\n') = false := by
      simp only [beq_eq_false_iff_ne, ne_eq]
      intro hh
      exact hnl (by simp [hh])
    rw [hc, addOffAux_false_append f seg rest (by simp at h ⊢; omega)
      (fun hm => hnl (by simp [hm]))]

theorem addOffAux_true_append (f : Nat) (seg rest : List Char)
    (h : (seg ++ '\n' :: rest).length < f) (hnl : '\n' ∉ seg) :
    addOffAux f true (seg ++ '\n' :: rest) =
      procSeg false seg ++ '\n' :: addOffAux (rest.length + 1) true rest := by
  cases f with
  | zero => simp at h
  | succ f =>
    cases hms : mNumWs seg with
    | some x =>
      obtain ⟨ds, w, r⟩ := x
      obtain ⟨hl, hne, hds, hw, -⟩ := mNumWs_some_decomp hms
      have hmfull : mNumWs (seg ++ '\n' :: rest) = some (ds, w, r ++ '\n' :: rest) :=
        mNumWs_append_some hms
      have hwnl : (w == '\n') = false := by
        simp only [beq_eq_false_iff_ne, ne_eq]
        intro hh
        subst hh
        exact hnl (by rw [hl]; simp)
      have hrnl : '\n' ∉ r := fun hm2 => hnl (by rw [hl]; simp [hm2])
      have hlenr : (r ++ '\n' :: rest).length < f := by
        have h2 := mNumWs_rest_length hmfull
        simp only [List.length_cons, List.length_append] at h h2 ⊢
        omega
      rw [addOffAux_true_of_some hmfull, hwnl,
        addOffAux_false_append f r rest hlenr hrnl]
      simp [procSeg, hms]
    | none =>
      by_cases hdig : seg ≠ [] ∧ ∀ c ∈ seg, isDigitCh c = true
      · have hmfull : mNumWs (seg ++ '\n' :: rest) = some (seg, '\n', rest) :=
          mNumWs_all_digits hdig.1 hdig.2
        have hlenr : rest.length < f := by
          have h2 := mNumWs_rest_length hmfull
          simp only [List.length_cons, List.length_append] at h h2 ⊢
          omega
        rw [addOffAux_true_of_some hmfull]
        rw [show (('\n' : Char) == '\n') = true from rfl]
        rw [addOffAux_congr f (rest.length + 1) true rest (by omega) (by omega)]
        have hcond : (seg.all isDigitCh) = true := by
          rw [List.all_eq_true]
          exact hdig.2
        have hcond2 : seg.isEmpty = false := by
          simpa [List.isEmpty_iff] using hdig.1
        simp [procSeg, hms, hcond, hcond2]
      · have hmfull : mNumWs (seg ++ '\n' :: rest) = none :=
          mNumWs_none_append hms hdig
        cases hseg0 : seg with
        | nil =>
          subst hseg0
          simp only [List.nil_append] at hmfull ⊢
          rw [addOffAux_true_of_none hmfull]
          rw [show (('\n' : Char) == '\n') = true from rfl]
          simp only [List.nil_append, List.length_cons] at h
          rw [addOffAux_congr f (rest.length + 1) true rest (by omega) (by omega)]
          rfl
        | cons c s' =>
          subst hseg0
          rw [List.cons_append] at hmfull ⊢
          rw [addOffAux_true_of_none hmfull]
          have hc : (c == '\n') = false := by
            simp only [beq_eq_false_iff_ne, ne_eq]
            intro hh
            exact hnl (by simp [hh])
          rw [hc, addOffAux_false_append f s' rest (by simp at h ⊢; omega)
            (fun hm => hnl (by simp [hm]))]
          have hallf : ((c :: s').all isDigitCh) = false := by
            by_cases hall : ∀ x ∈ c :: s', isDigitCh x = true
            · exact absurd ⟨by simp, hall⟩ hdig
            · simpa [List.all_eq_true] using hall
          simp [procSeg, hms, hallf]

theorem procSeg_no_nl {seg : List Char} (fin : Bool) (h : '\n' ∉ seg) :
    '\n' ∉ procSeg fin seg := by
  cases hm : mNumWs seg with
  | some x =>
    obtain ⟨ds, w, r⟩ := x
    obtain ⟨hl, -, -, -, -⟩ := mNumWs_some_decomp hm
    simp only [procSeg, hm]
    intro hmem
    rcases List.mem_append.1 hmem with hm1 | hm1
    · exact natDigits_no_nl _ hm1
    · exact h (by rw [hl]; exact List.mem_append.2 (Or.inr hm1))
  | none =>
    simp only [procSeg, hm]
    split
    · exact natDigits_no_nl _
    · exact h

theorem procLines_cons (l : List Char) (ls : List (List Char)) (h : ls ≠ []) :
    procLines (l :: ls) = procSeg false l :: procLines ls := by
  cases ls with
  | nil => exact absurd rfl h
  | cons a as => rfl

theorem procLines_length : ∀ ls : List (List Char), (procLines ls).length = ls.length
  | [] => rfl
  | [_] => rfl
  | l :: l2 :: ls => by
    rw [procLines_cons l (l2 :: ls) (by simp)]
    simp only [List.length_cons]
    rw [procLines_length (l2 :: ls)]
    simp

theorem procLines_getD_last :
    ∀ (ls : List (List Char)) (i : Nat), i + 1 = ls.length →
      (procLines ls).getD i [] = procSeg true (ls.getD i [])
  | [], i, h => by simp at h
  | [l], i, h => by
    have : i = 0 := by simpa using h
    subst this
    rfl
  | l :: l2 :: ls, i, h => by
    cases i with
    | zero => simp at h
    | succ i =>
      rw [procLines_cons l (l2 :: ls) (by simp)]
      simp only [List.getD_cons_succ]
      exact procLines_getD_last (l2 :: ls) i (by simpa using h)

theorem procLines_getD_mid :
    ∀ (ls : List (List Char)) (i : Nat), i + 1 < ls.length →
      (procLines ls).getD i [] = procSeg false (ls.getD i [])
  | [], i, h => by simp at h
  | [l], i, h => by simp at h
  | l :: l2 :: ls, i, h => by
    rw [procLines_cons l (l2 :: ls) (by simp)]
    cases i with
    | zero => rfl
    | succ i =>
      simp only [List.getD_cons_succ]
      exact procLines_getD_mid (l2 :: ls) i (by simpa using h)

/-- The per-line characterization of `addOffset`: splitting the rewritten
content at newlines is `procSeg` applied to every original segment. -/
theorem addOffset_lines :
    ∀ (n : Nat) (content : List Char), content.length ≤ n →
      splitNl (addOffset content) = procLines (splitNl content)
  | 0, content, hn => by
    have hc : content = [] := List.length_eq_zero.1 (Nat.le_zero.1 hn)
    subst hc
    rfl
  | n + 1, content, hn => by
    by_cases hnl : '\n' ∈ content
    · rcases hdrop : content.dropWhile (fun c => !(c == '\n')) with _ | ⟨d, rest⟩
      · exfalso
        have := dropWhile_nil_all hdrop '\n' hnl
        simp at this
      · have hd : d = '\n' := by
          have := dropWhile_head_not (fun c => !(c == '\n')) content
            (c := d) (by rw [hdrop]; rfl)
          simpa using this
        subst hd
        have hcontent : content = content.takeWhile (fun c => !(c == '\n')) ++
            '\n' :: rest := by
          conv_lhs => rw [← List.takeWhile_append_dropWhile
            (p := fun c => !(c == '\n')) (l := content)]
          rw [hdrop]
        have hsegnl : '\n' ∉ content.takeWhile (fun c => !(c == '\n')) := by
          intro hm
          have := List.mem_takeWhile_imp hm
          simp at this
        have hrest : rest.length ≤ n := by
          have : content.length = (content.takeWhile (fun c => !(c == '\n'))).length
              + rest.length + 1 := by
            conv_lhs => rw [hcontent]
            simp only [List.length_append, List.length_cons]
            omega
          omega
        have hL : addOffset content = procSeg false
            (content.takeWhile (fun c => !(c == '\n'))) ++
            '\n' :: addOffset rest := by
          unfold addOffset
          rw [hcontent]
          rw [addOffAux_true_append
            ((content.takeWhile (fun c => !(c == '\n')) ++ '\n' :: rest).length + 1)
            (content.takeWhile (fun c => !(c == '\n'))) rest (by omega) hsegnl]
          rw [(takeWhile_append_eq (content.takeWhile (fun c => !(c == '\n'))) rest
            (fun c hc => List.mem_takeWhile_imp hc) (by simp)).1]
        rw [hL]
        conv_rhs => rw [hcontent]
        rw [splitNl_append _ _ (procSeg_no_nl false hsegnl),
          splitNl_append _ _ hsegnl,
          procLines_cons _ _ (splitNl_ne_nil rest),
          addOffset_lines n rest hrest]
    · have h1 : splitNl content = [content] := splitNl_no_nl content hnl
      have h2 : addOffset content = procSeg true content :=
        addOffAux_true_no_nl _ _ (by omega) hnl
      rw [h2, h1, splitNl_no_nl _ (procSeg_no_nl true hnl)]
      rfl

/-- Claim C10: `add_offset_to_numbers` preserves the number of newlines
(hence the number of lines), and every line that does not start with
digits immediately followed by a whitespace character — the terminating
newline counting as such a character for a digits-only line — is left
byte-for-byte unchanged. -/
theorem claim_C10 (content : List Char) :
    (addOffset content).count '\n' = content.count '\n' ∧
    (splitNl (addOffset content)).length = (splitNl content).length ∧
    ∀ i, i < (splitNl content).length →
      mNumWs ((splitNl content).getD i [] ++
        (if i + 1 = (splitNl content).length then [] else ['\n'])) = none →
      (splitNl (addOffset content)).getD i [] = (splitNl content).getD i [] := by
  have hchar := addOffset_lines content.length content (Nat.le_refl _)
  have hlen : (splitNl (addOffset content)).length = (splitNl content).length := by
    rw [hchar, procLines_length]
  refine ⟨?_, hlen, ?_⟩
  · have e1 := splitNl_length (addOffset content)
    have e2 := splitNl_length content
    omega
  · intro i hi hno
    by_cases hlast : i + 1 = (splitNl content).length
    · simp only [hlast, if_true, List.append_nil] at hno
      rw [hchar, procLines_getD_last _ _ hlast]
      unfold procSeg
      rw [hno]
      simp
    · have hmid : i + 1 < (splitNl content).length := by omega
      simp only [hlast, if_false] at hno
      rw [hchar, procLines_getD_mid _ _ hmid]
      generalize hg : (splitNl content).getD i [] = l at hno ⊢
      have hn1 : mNumWs l = none := by
        cases hm : mNumWs l with
        | none => rfl
        | some x =>
          obtain ⟨ds, w, r⟩ := x
          have hap := mNumWs_append_some (t := ['\n']) hm
          rw [hno] at hap
          exact absurd hap (by simp)
      have hn2 : ¬(l ≠ [] ∧ ∀ c ∈ l, isDigitCh c = true) := by
        rintro ⟨hne, hall⟩
        have hap := @mNumWs_all_digits l [] hne hall
        rw [hno] at hap
        exact absurd hap (by simp)
      unfold procSeg
      rw [hn1]
      simp [hn2]

/-- Witness for claim C10: on `abc\n12x\n` no line is renumbered and the
newline count is preserved. -/
theorem claim_C10_witness :
    (addOffset "abc\n12x\n".toList).count '\n' = "abc\n12x\n".toList.count '\n' ∧
    (splitNl (addOffset "abc\n12x\n".toList)).getD 1 [] =
      (splitNl "abc\n12x\n".toList).getD 1 [] :=
  ⟨(claim_C10 "abc\n12x\n".toList).1,
   (claim_C10 "abc\n12x\n".toList).2.2 1 (by decide) (by decide)⟩

/-- Claim C9: for a file whose name embeds a numeric suffix at least
`START_FILE`, every content line beginning with digits followed by a
whitespace character is rewritten by adding `OFFSET` to the digits,
preserving the whitespace character and the rest of the line; a line
consisting solely of digits (with its terminating newline as the matched
whitespace) is renumbered likewise. -/
theorem claim_C9 (name content : List Char) (k : Nat)
    (hk : fileNum name = some k) (hge : START_FILE ≤ k) :
    (∀ (i : Nat) (ds rest : List Char) (w : Char),
      (splitNl content).getD i [] = ds ++ w :: rest →
      ds ≠ [] → (∀ c ∈ ds, isDigitCh c = true) → isWs w = true →
      (splitNl (toriFile name content)).getD i [] =
        natDigits (digitsToNat ds + OFFSET) ++ w :: rest) ∧
    (∀ (i : Nat) (ds : List Char),
      i + 1 < (splitNl content).length →
      (splitNl content).getD i [] = ds →
      ds ≠ [] → (∀ c ∈ ds, isDigitCh c = true) →
      (splitNl (toriFile name content)).getD i [] =
        natDigits (digitsToNat ds + OFFSET)) := by
  have htf : toriFile name content = addOffset content := by
    unfold toriFile
    rw [hk]
    simp [hge]
  have hchar := addOffset_lines content.length content (Nat.le_refl _)
  constructor
  · intro i ds rest w hline hne hds hw
    have hlt : i < (splitNl content).length := by
      by_contra hcon
      push_neg at hcon
      have := List.getD_eq_default (splitNl content) [] hcon
      rw [hline] at this
      simp at this
    have hm : mNumWs ((splitNl content).getD i []) = some (ds, w, rest) := by
      rw [hline]
      exact mNumWs_of_decomp hne hds hw
    rw [htf, hchar]
    by_cases hlast : i + 1 = (splitNl content).length
    · rw [procLines_getD_last _ _ hlast]
      unfold procSeg
      rw [hm]
    · rw [procLines_getD_mid _ _ (by omega)]
      unfold procSeg
      rw [hm]
  · intro i ds hmid hline hne hds
    have hm : mNumWs ds = none := by
      unfold mNumWs
      have hdrop : ds.dropWhile isDigitCh = [] := by
        rw [List.dropWhile_eq_nil_iff]
        intro x hx
        simp [hds x hx]
      rw [hdrop]
      split
      · rfl
      · rfl
    rw [htf, hchar, procLines_getD_mid _ _ hmid, hline]
    unfold procSeg
    rw [hm]
    have hcond : (!ds.isEmpty && ds.all isDigitCh) = true := by
      simp only [Bool.and_eq_true, Bool.not_eq_true']
      refine ⟨by simpa [List.isEmpty_iff] using hne, ?_⟩
      rw [List.all_eq_true]
      exact hds
    simp [hcond]

/-- Witness for claim C9: in `actor_assignments8.txt` (suffix 8, at the
threshold) the line `5 Hello world` becomes `617 Hello world`, and the
digits-only line `42` becomes `654`. -/
theorem claim_C9_witness :
    fileNum "actor_assignments8.txt".toList = some 8 ∧
    (splitNl (toriFile "actor_assignments8.txt".toList
        "5 Hello world\n42\nx".toList)).getD 0 [] =
      natDigits (digitsToNat "5".toList + OFFSET) ++ ' ' :: "Hello world".toList ∧
    (splitNl (toriFile "actor_assignments8.txt".toList
        "5 Hello world\n42\nx".toList)).getD 1 [] =
      natDigits (digitsToNat "42".toList + OFFSET) :=
  ⟨by decide,
   (claim_C9 "actor_assignments8.txt".toList "5 Hello world\n42\nx".toList 8
      (by decide) (by decide)).1 0 "5".toList "Hello world".toList ' '
      (by decide) (by decide) (by decide) (by decide),
   (claim_C9 "actor_assignments8.txt".toList "5 Hello world\n42\nx".toList 8
      (by decide) (by decide)).2 1 "42".toList
      (by decide) (by decide) (by decide) (by decide)⟩

end FunLines
